import Mathlib

/-!
Verification of the reverse-index resolver of coherent.build
(src/pypi.py and src/distributions/process.py), as a shallow embedding.

Python strings are modelled as `List Char`; byte strings as `List Nat`
(each entry < 256).  Python functions that can raise are modelled with
`Except PyExc`; a `.error` value means the Python function raised.
-/

/-- Python exceptions that the embedded code can raise or catch.
`unicodeDecodeErr` is a subclass of `ValueError` in Python; `connErr`
(requests.exceptions.ConnectionError) is neither an `HTTPError` nor a
`ValueError`. -/
inductive PyExc where
  | stopIteration : PyExc
  | keyErr : List Char → PyExc
  | valueErr : List Char → PyExc
  | httpErr : List Char → PyExc
  | connErr : List Char → PyExc
  | unicodeDecodeErr : PyExc
  | syntaxErr : PyExc
deriving DecidableEq

/-- Equality of `Except` values is decidable when both component types
have decidable equality (needed to `decide` concrete runs). -/
instance exceptDecEq {ε α : Type} [DecidableEq ε] [DecidableEq α] :
    DecidableEq (Except ε α) := fun x y =>
  match x, y with
  | Except.ok a, Except.ok b =>
    if h : a = b then isTrue (by rw [h])
    else isFalse (by intro hc; cases hc; exact h rfl)
  | Except.error a, Except.error b =>
    if h : a = b then isTrue (by rw [h])
    else isFalse (by intro hc; cases hc; exact h rfl)
  | Except.ok _, Except.error _ => isFalse (by intro hc; cases hc)
  | Except.error _, Except.ok _ => isFalse (by intro hc; cases hc)

/-- `str.partition(sep)` for a single-character separator: split at the
FIRST occurrence, returning (head, sep, tail); `(s, [], [])` when absent. -/
def pyPartition (c : Char) : List Char → List Char × List Char × List Char
  | [] => ([], [], [])
  | x :: xs =>
    if x = c then ([], [c], xs)
    else ((x :: (pyPartition c xs).1, (pyPartition c xs).2))

/-- `str.rpartition(sep)` for a single-character separator: split at the
LAST occurrence, returning (head, sep, tail); `([], [], s)` when absent. -/
def pyRPartition (c : Char) : List Char → List Char × List Char × List Char
  | [] => ([], [], [])
  | x :: xs =>
    if (pyRPartition c xs).2.1 = [] then
      if x = c then ([], [c], xs) else ([], [], x :: xs)
    else ((x :: (pyRPartition c xs).1, (pyRPartition c xs).2))

/-- `top` from src/pypi.py: the first dotted segment, or `""` for a
single-segment name (Python returns `sep and top`). -/
def top (package_name : List Char) : List Char :=
  if (pyPartition '.' package_name).2.1 = [] then []
  else (pyPartition '.' package_name).1

/-- `parent` from src/pypi.py: all but the last segment, or `""` for a
single-segment name (Python returns `sep and parent`). -/
def parent (package_name : List Char) : List Char :=
  if (pyRPartition '.' package_name).2.1 = [] then []
  else (pyRPartition '.' package_name).1

/-- Fuel-bounded version of `all_names` (src/pypi.py recurses on the
prefix before the last dot, which is not a structural subterm; the fuel
is an upper bound on the string length and is never exhausted when it
starts at the length — see `all_names_unfold`). -/
def all_names_fuel : Nat → List Char → List (List Char)
  | 0, s => [s]
  | fuel + 1, s =>
    if (pyRPartition '.' s).1 = [] then [s]
    else s :: all_names_fuel fuel (pyRPartition '.' s).1

/-- `all_names` from src/pypi.py: the module name followed by each dotted
ancestor, most specific first. -/
def all_names (module : List Char) : List (List Char) :=
  all_names_fuel module.length module

/-- `find_roots` from src/pypi.py: keep a package when neither its `top`
nor its `parent` occurs in the full original input. -/
def find_roots (packages : List (List Char)) : List (List Char) :=
  packages.filter fun pkg =>
    !(packages.contains (top pkg)) && !(packages.contains (parent pkg))

/-- Join dotted-name segments with `'.'` (specification-side construction
used to state claims about `top`, `parent` and `all_names` in terms of
segments). -/
def joinDots : List (List Char) → List Char
  | [] => []
  | [s] => s
  | s :: rest => s ++ '.' :: joinDots rest

/-- Fuel-bounded helper for `prefixList` (recursion on `dropLast` is not
structural). -/
def prefixList_fuel : Nat → List (List Char) → List (List Char)
  | 0, _ => []
  | fuel + 1, segs =>
    if segs = [] then [] else joinDots segs :: prefixList_fuel fuel segs.dropLast

/-- All nonempty prefixes of a segment list, longest first, each joined
with dots (specification-side: the expected value of `all_names`). -/
def prefixList (segs : List (List Char)) : List (List Char) :=
  prefixList_fuel segs.length segs

/-- A document of the `distributions` collection.  `none` models a key
that is absent from the document (MongoDB documents are open-schema;
src/pypi.py projects exactly these keys in `Distribution.__json__`). -/
structure DistRecord where
  id : List Char
  name : Option (List Char) := none
  roots : Option (List (List Char)) := none
  error : Option (List Char) := none
  downloads : Option Nat := none
  updated : Option Nat := none
deriving DecidableEq

/-- The store is the sequence of documents in the collection, in the
order the store enumerates them (`find_one` returns the first match). -/
abbrev Store : Type := List DistRecord

/-- Does the document's `roots` array contain `m` (the MongoDB query
`{'roots': m}` matches only documents whose `roots` key holds `m`)? -/
def rootsHas (rec : DistRecord) (m : List Char) : Bool :=
  match rec.roots with
  | some rs => rs.contains m
  | none => false

/-- `is_root` from src/pypi.py: `find_one({'roots': module})` — the first
document whose roots contain the module, else `None`. -/
def is_root (store : Store) (module : List Char) : Option DistRecord :=
  store.find? fun rec => rootsHas rec module

/-- `distribution_for` from src/pypi.py:
`next(filter(bool, map(is_root, all_names(import_name))))['name']`.
`next` on an exhausted iterator raises `StopIteration`; subscripting a
document that lacks the `name` key raises `KeyError`. -/
def distribution_for (store : Store) (import_name : List Char) :
    Except PyExc (List Char) :=
  match (all_names import_name).findSome? (fun c => is_root store c) with
  | none => Except.error PyExc.stopIteration
  | some rec =>
    match rec.name with
    | some nm => Except.ok nm
    | none => Except.error (PyExc.keyErr "name".toList)

/-- One asset descriptor from the `urls` list of the PyPI per-project
JSON response. -/
structure Asset where
  filename : List Char
  url : List Char
deriving DecidableEq

/-- The per-project JSON response, reduced to the part
`Distribution.wheel` reads: `urls = none` models a response without the
`'urls'` key. -/
structure ProjectInfo where
  urls : Option (List Asset)
deriving DecidableEq

/-- The selection logic of `Distribution.wheel` (src/pypi.py): raise
`ValueError("No dists")` when the response has no `'urls'` key, else
pick the first asset whose filename ends with `.whl`, raising
`ValueError("No wheels")` when none does (`more_itertools.first` raises
`ValueError` on an empty iterable, re-raised with that message).
The spec's `NoReleases` condition is `ValueError("No dists")` and its
`NoBinaryArtifact` condition is `ValueError("No wheels")`. -/
def wheel_select (info : ProjectInfo) : Except PyExc Asset :=
  match info.urls with
  | none => Except.error (PyExc.valueErr "No dists".toList)
  | some urls =>
    match urls.find? (fun u => ".whl".toList.isSuffixOf u.filename) with
    | none => Except.error (PyExc.valueErr "No wheels".toList)
    | some m => Except.ok m

/-- The outcome of fetching and inspecting one distribution's wheel
(`self.wheel`, `self._get_name()` and `find_names(self.wheel)` combined):
either the canonical name plus the names found in the archive, or the
Python exception the fetch/inspection raised. -/
inductive FetchOutcome where
  | ok : List Char → List (List Char) → FetchOutcome
  | raise : PyExc → FetchOutcome
deriving DecidableEq

/-- Is the exception caught by `except (ValueError, HTTPError, KeyError)`
in `Distribution.from_wheel`?  `UnicodeDecodeError` is a subclass of
`ValueError` in Python, so it is caught; `StopIteration`, `SyntaxError`
and `requests.exceptions.ConnectionError` are not subclasses of any of
the three, so they propagate. -/
def caughtByFromWheel : PyExc → Bool
  | PyExc.valueErr _ => true
  | PyExc.unicodeDecodeErr => true
  | PyExc.httpErr _ => true
  | PyExc.keyErr _ => true
  | _ => false

/-- `str(exc)` for the exceptions above (the exact text is irrelevant to
the claims; only which field of the record it lands in matters). -/
def excStr : PyExc → List Char
  | PyExc.stopIteration => []
  | PyExc.keyErr m => m
  | PyExc.valueErr m => m
  | PyExc.httpErr m => m
  | PyExc.connErr m => m
  | PyExc.unicodeDecodeErr => "invalid byte".toList
  | PyExc.syntaxErr => "invalid or missing encoding declaration".toList

/-- `Distribution.from_wheel` (src/pypi.py) composed with `refresh` and
`__json__`: the `$set` document that `save` will upsert for `id`.  On
success the document is `{id, name, roots, updated}` with
`roots = find_roots(find_names(wheel))`; when the fetch or inspection
raises an exception caught by the handler, it is `{id, error, updated}`;
any other exception propagates. -/
def from_wheel (now : Nat) (id : List Char) (o : FetchOutcome) :
    Except PyExc DistRecord :=
  match o with
  | FetchOutcome.ok nm names =>
    Except.ok { id := id, name := some nm, roots := some (find_roots names),
                updated := some now }
  | FetchOutcome.raise e =>
    if caughtByFromWheel e then
      Except.ok { id := id, error := some (excStr e), updated := some now }
    else Except.error e

/-- MongoDB `$set` semantics: keys present in the update document are
overwritten, absent keys keep their stored value. -/
def setFields (old upd : DistRecord) : DistRecord :=
  { id := upd.id,
    name := upd.name.orElse (fun _ => old.name),
    roots := upd.roots.orElse (fun _ => old.roots),
    error := upd.error.orElse (fun _ => old.error),
    downloads := upd.downloads.orElse (fun _ => old.downloads),
    updated := upd.updated.orElse (fun _ => old.updated) }

/-- `Distribution.save` (src/pypi.py):
`update_one({'id': self}, {'$set': self.__json__()}, upsert=True)` —
apply `$set` to the first document with this id, or insert the update
document when none exists. -/
def upsert : Store → DistRecord → Store
  | [], upd => [upd]
  | rec :: rest, upd =>
    if rec.id = upd.id then setFields rec upd :: rest
    else rec :: upsert rest upd

/-- `Distribution.unprocessed` (src/pypi.py): the ids of documents
matching `{"updated": {"$exists": False}}`. -/
def unprocessed (store : Store) : List (List Char) :=
  (store.filter fun rec => rec.updated = none).map fun rec => rec.id

/-- `run` from src/distributions/process.py: for each distribution, in
order, `refresh()` then `save()`.  `env` gives each distribution's
fetch/inspection outcome and `now` the timestamp.  The result is the
final state of the store together with the exception that aborted the
loop, if any: an exception that `from_wheel` does not catch propagates
out of the `for` loop, leaving the store with only the records upserted
so far. -/
def crawl (env : List Char → FetchOutcome) (now : Nat) :
    List (List Char) → Store → Store × Option PyExc
  | [], store => (store, none)
  | d :: ds, store =>
    match from_wheel now d (env d) with
    | Except.ok upd => crawl env now ds (upsert store upd)
    | Except.error e => (store, some e)

/-- Does the outcome either succeed or raise only an exception that
`Distribution.from_wheel` catches? -/
def raiseOnlyCaught : FetchOutcome → Bool
  | FetchOutcome.ok _ _ => true
  | FetchOutcome.raise e => caughtByFromWheel e

/-- A record carrying a completed-crawl outcome: `updated` is set and at
least one of `error` / `roots` is populated. -/
def goodRec (rec : DistRecord) : Bool :=
  rec.updated.isSome && (rec.error.isSome || rec.roots.isSome)

/-- The three distribution names of the spec's crawl scenario. -/
def dAlpha : List Char := "alpha".toList

/-- Second scenario distribution (its fetch fails). -/
def dBeta : List Char := "beta".toList

/-- Third scenario distribution. -/
def dGamma : List Char := "gamma".toList

/-- Fetch outcomes of the spec's 3-distribution scenario: the middle
distribution's fetch fails with an HTTP 404 (`raise_for_status` raises
`requests.exceptions.HTTPError`), the others succeed. -/
def env404 (d : List Char) : FetchOutcome :=
  if d = dAlpha then FetchOutcome.ok "Alpha".toList ["alpha".toList]
  else if d = dBeta then
    FetchOutcome.raise (PyExc.httpErr "404 Client Error: Not Found".toList)
  else FetchOutcome.ok "Gamma".toList ["gamma".toList, "gamma.sub".toList]

/-- Fetch outcomes where the middle distribution's fetch raises
`requests.exceptions.ConnectionError`, which `from_wheel` does not
catch. -/
def envConnFail (d : List Char) : FetchOutcome :=
  if d = dBeta then FetchOutcome.raise (PyExc.connErr "connection refused".toList)
  else env404 d

/-- The store produced by crawling the 3-distribution scenario. -/
def store404 : Store :=
  [{ id := dAlpha, name := some "Alpha".toList,
     roots := some ["alpha".toList], updated := some 7 },
   { id := dBeta, error := some "404 Client Error: Not Found".toList,
     updated := some 7 },
   { id := dGamma, name := some "Gamma".toList,
     roots := some ["gamma".toList], updated := some 7 }]

/-- An indexed record owning root `a.b`. -/
def recAB : DistRecord :=
  { id := "d-ab".toList, name := some "d-ab".toList,
    roots := some ["a.b".toList], updated := some 3 }

/-- An indexed record owning root `a.b.c`. -/
def recABC : DistRecord :=
  { id := "d-abc".toList, name := some "d-abc".toList,
    roots := some ["a.b.c".toList], updated := some 3 }

/-- An index containing only the owner of `a.b`. -/
def storeAB : Store := [recAB]

/-- An index containing the owners of both `a.b` (first, in store order)
and `a.b.c`. -/
def storeAB_ABC : Store := [recAB, recABC]

/-- A binary-archive (wheel) asset. -/
def whlAsset : Asset :=
  { filename := "pkg-1.0-py3-none-any.whl".toList, url := "u1".toList }

/-- A source-archive asset (not a wheel). -/
def sdistAsset : Asset :=
  { filename := "pkg-1.0.tar.gz".toList, url := "u0".toList }

/-- The record that `from_wheel` produces for the failing distribution
of the 404 scenario. -/
def c7rec : DistRecord :=
  { id := dBeta, error := some "404 Client Error: Not Found".toList,
    updated := some 7 }

/-- Find the first occurrence of `p` in `t` and return the remainder of
`t` after that occurrence, or `none` when `p` does not occur. -/
def searchAfter (p : List Char) : List Char → Option (List Char)
  | [] => if p.isEmpty then some [] else none
  | c :: cs =>
    if p.isPrefixOf (c :: cs) then some ((c :: cs).drop p.length)
    else searchAfter p cs

/-- Do the literals occur in `t`, in order, without overlap (the
semantics of a regex `p₁.*p₂.*…` under `re.search` with `re.DOTALL`)? -/
def seqSearch : List (List Char) → List Char → Bool
  | [], _ => true
  | p :: ps, t =>
    match searchAfter p t with
    | none => false
    | some r => seqSearch ps r

/-- The alternatives of the first group of `ns_pattern` (src/pypi.py):
`(pkg_resources|pkgutil)`. -/
def nsGroups : List (List Char) := ["pkg_resources".toList, "pkgutil".toList]

/-- The alternatives of the second group of `ns_pattern` (src/pypi.py):
the namespace-declaring call. -/
def nsCalls : List (List Char) :=
  [".declare_namespace(__name__)".toList,
   ".extend_path(__path__, __name__)".toList]

/-- `ns_pattern.search(text)` (src/pypi.py): the regex
`import.*(pkg_resources|pkgutil).*(call₁|call₂)` with `re.DOTALL`
matches somewhere in `text`. -/
def nsSearch (text : List Char) : Bool :=
  nsGroups.any fun g => nsCalls.any fun s =>
    seqSearch ["import".toList, g, s] text

/-- The body of `is_namespace` (src/pypi.py) after the file has been
read: `bool(len(text) < 2**10 and ns_pattern.search(text))`.  Note the
length tested is that of the DECODED text (a Python `str`), i.e. a
character count. -/
def is_namespace (text : List Char) : Bool :=
  decide (text.length < 1024) && nsSearch text

/-- Specification-side: the literals occur in `t` sequentially, i.e.
`t = a₀ ++ p₁ ++ a₁ ++ p₂ ++ … ++ aₙ`. -/
def SeqDecomp : List (List Char) → List Char → Prop
  | [], _ => True
  | p :: ps, t => ∃ a r, t = a ++ p ++ r ∧ SeqDecomp ps r

/-- Specification-side: the text matches one of the four
group/call combinations of `ns_pattern`, i.e. mentions `import`, then a
namespace machinery module, then a namespace-declaring call, in order. -/
def matchesNs (text : List Char) : Prop :=
  ∃ g ∈ nsGroups, ∃ s ∈ nsCalls, SeqDecomp ["import".toList, g, s] text

/-- An ASCII single quote (kept out of string literals). -/
def quoteChar : Char := Char.ofNat 39

/-- The canonical pkgutil-style namespace declaration, as in the
`is_namespace` doctest:
`__path__ = __import__(◂sq▸pkgutil◂sq▸).extend_path(__path__, __name__)`. -/
def pkgutilIdiom : List Char :=
  "__path__ = __import__(".toList ++ [quoteChar] ++ "pkgutil".toList ++ [quoteChar] ++
    ").extend_path(__path__, __name__)".toList

/-- The canonical pkg_resources-style namespace declaration, as in the
`is_namespace` doctest. -/
def pkgResIdiom : List Char :=
  "import pkg_resources\npkg_resources.declare_namespace(__name__)".toList

example : nsSearch pkgutilIdiom = true := by decide
example : nsSearch pkgResIdiom = true := by decide
example : is_namespace pkgutilIdiom = true := by decide
example : is_namespace "import pkgutil".toList = false := by decide

/-- Decode a UTF-8 byte sequence, rejecting malformed sequences exactly
as Python's `utf-8` codec does (continuation checks, overlong forms,
surrogates, values above U+10FFFF). -/
def decodeUtf8 : List Nat → Option (List Char)
  | [] => some []
  | b :: bs =>
    if b < 0x80 then
      match decodeUtf8 bs with
      | some cs => some (Char.ofNat b :: cs)
      | none => none
    else if b < 0xC2 then none
    else if b < 0xE0 then
      match bs with
      | b1 :: bs1 =>
        if 0x80 ≤ b1 ∧ b1 < 0xC0 then
          match decodeUtf8 bs1 with
          | some cs => some (Char.ofNat ((b - 0xC0) * 64 + (b1 - 0x80)) :: cs)
          | none => none
        else none
      | [] => none
    else if b < 0xF0 then
      match bs with
      | b1 :: b2 :: bs2 =>
        if 0x80 ≤ b1 ∧ b1 < 0xC0 ∧ 0x80 ≤ b2 ∧ b2 < 0xC0 then
          let cp := (b - 0xE0) * 4096 + (b1 - 0x80) * 64 + (b2 - 0x80)
          if 0x800 ≤ cp ∧ ¬(0xD800 ≤ cp ∧ cp ≤ 0xDFFF) then
            match decodeUtf8 bs2 with
            | some cs => some (Char.ofNat cp :: cs)
            | none => none
          else none
        else none
      | _ => none
    else if b < 0xF5 then
      match bs with
      | b1 :: b2 :: b3 :: bs3 =>
        if 0x80 ≤ b1 ∧ b1 < 0xC0 ∧ 0x80 ≤ b2 ∧ b2 < 0xC0 ∧
            0x80 ≤ b3 ∧ b3 < 0xC0 then
          let cp := (b - 0xF0) * 262144 + (b1 - 0x80) * 4096 +
            (b2 - 0x80) * 64 + (b3 - 0x80)
          if 0x10000 ≤ cp ∧ cp ≤ 0x10FFFF then
            match decodeUtf8 bs3 with
            | some cs => some (Char.ofNat cp :: cs)
            | none => none
          else none
        else none
      | _ => none
    else none

/-- Decode ISO-8859-1 (Python `latin-1`): every byte maps to the code
point of the same value, so decoding never fails. -/
def decodeLatin1 (bs : List Nat) : List Char :=
  bs.map Char.ofNat

/-- Split off the first line of a byte string, keeping the terminating
`\n` (byte 10) with the line, as `BufferedReader.readline` does. -/
def splitLine : List Nat → List Nat × List Nat
  | [] => ([], [])
  | b :: bs =>
    if b = 10 then ([10], bs)
    else ((b :: (splitLine bs).1, (splitLine bs).2))

example : splitLine (("ab\ncd".toList).map Char.toNat) =
    (("ab\n".toList).map Char.toNat, ("cd".toList).map Char.toNat) := by decide

/-- The encodings the model supports (CPython supports every registered
codec; the files this repository scans use these).  `utf8sig` is
`utf-8-sig`: UTF-8 with the byte-order mark stripped. -/
inductive Encoding where
  | utf8 : Encoding
  | utf8sig : Encoding
  | latin1 : Encoding
deriving DecidableEq

/-- Is the character one matched by `[-\w.]` in the coding-cookie regex? -/
def isCookieNameChar (c : Char) : Bool :=
  c.isAlphanum || c = '_' || c = '-' || c = '.'

/-- Scan a decoded comment line for `coding[:=][ \t]*([-\w.]+)` and
return the declared-encoding name (the non-greedy `.*?` of
`tokenize.cookie_re` takes the first `coding[:=]` that is followed by a
nonempty name). -/
def findCoding : List Char → Option (List Char)
  | [] => none
  | c :: cs =>
    if "coding".toList.isPrefixOf (c :: cs) then
      match (c :: cs).drop 6 with
      | k :: ks =>
        if k = ':' ∨ k = '=' then
          match (ks.dropWhile fun x => x = ' ' ∨ x = '\t').takeWhile
              isCookieNameChar with
          | [] => findCoding cs
          | nm => some nm
        else findCoding cs
      | [] => none
    else findCoding cs

/-- `tokenize.cookie_re` applied to a decoded line: the line must be
blank-prefixed comment (`^[ \t\f]*#`) and then declare a coding. -/
def cookieOf (line : List Char) : Option (List Char) :=
  match line.dropWhile fun c => c = ' ' ∨ c = '\t' ∨ c = '\x0c' with
  | '#' :: rest => findCoding rest
  | _ => none

/-- `tokenize._get_normal_name` plus `codecs.lookup`, restricted to the
encodings of the model: resolve a declared name to a codec, `none` for
a codec outside the model (CPython would raise `SyntaxError` for an
unknown one). -/
def lookupEncoding (nm : List Char) : Option Encoding :=
  if nm = "utf-8".toList ∨ nm = "utf8".toList ∨ nm = "UTF-8".toList then
    some Encoding.utf8
  else if nm = "latin-1".toList ∨ nm = "iso-8859-1".toList ∨
      nm = "iso-latin-1".toList ∨ nm = "latin1".toList then
    some Encoding.latin1
  else none

/-- `tokenize.blank_re` applied to a raw line: `^[ \t\f]*(?:[#\r\n]|$)` —
only a blank or comment first line lets detection read a second line. -/
def blankLine (line : List Nat) : Bool :=
  match line.dropWhile fun b => b = 32 ∨ b = 9 ∨ b = 12 with
  | [] => true
  | b :: _ => b = 35 ∨ b = 13 ∨ b = 10

/-- `tokenize.find_cookie` on one raw line: decode it as UTF-8 (failure
is a `SyntaxError`), look for a coding cookie, resolve it (an unknown
codec or a non-UTF-8 cookie after a byte-order mark is a `SyntaxError`). -/
def findCookieLine (line : List Nat) (bom : Bool) :
    Except PyExc (Option Encoding) :=
  match decodeUtf8 line with
  | none => Except.error PyExc.syntaxErr
  | some chars =>
    match cookieOf chars with
    | none => Except.ok none
    | some nm =>
      match lookupEncoding nm with
      | none => Except.error PyExc.syntaxErr
      | some enc =>
        if bom then
          if enc = Encoding.utf8 then Except.ok (some Encoding.utf8sig)
          else Except.error PyExc.syntaxErr
        else Except.ok (some enc)

/-- Modelled from CPython `tokenize.detect_encoding` (called by `open` in
src/pypi.py): strip a UTF-8 byte-order mark, look for a coding cookie on
the first line, and on the second line when the first is blank or a
comment; default to UTF-8 (`utf-8-sig` after a byte-order mark). -/
def detect_encoding (file : List Nat) : Except PyExc Encoding :=
  let bom := [0xEF, 0xBB, 0xBF].isPrefixOf file
  let body := if bom then file.drop 3 else file
  let dflt := if bom then Encoding.utf8sig else Encoding.utf8
  let l1 := (splitLine body).1
  if l1 = [] then Except.ok dflt
  else
    match findCookieLine l1 bom with
    | Except.error e => Except.error e
    | Except.ok (some enc) => Except.ok enc
    | Except.ok none =>
      if blankLine l1 then
        let l2 := (splitLine (splitLine body).2).1
        if l2 = [] then Except.ok dflt
        else
          match findCookieLine l2 bom with
          | Except.error e => Except.error e
          | Except.ok (some enc) => Except.ok enc
          | Except.ok none => Except.ok dflt
      else Except.ok dflt

/-- Decode a whole file under a codec, as `TextIOWrapper.read` does;
`none` models a raised `UnicodeDecodeError` (latin-1 cannot fail). -/
def decodeFile : Encoding → List Nat → Option (List Char)
  | Encoding.utf8, file => decodeUtf8 file
  | Encoding.utf8sig, file =>
    decodeUtf8 (if [0xEF, 0xBB, 0xBF].isPrefixOf file then file.drop 3 else file)
  | Encoding.latin1, file => some (decodeLatin1 file)

/-- `open` from src/pypi.py followed by `strm.read()`: detect the
encoding (its `SyntaxError` propagates here), seek back to the start and
decode the whole file with the detected encoding (a failure there is a
`UnicodeDecodeError`). -/
def pyReadText (file : List Nat) : Except PyExc (List Char) :=
  match detect_encoding file with
  | Except.error e => Except.error e
  | Except.ok enc =>
    match decodeFile enc file with
    | none => Except.error PyExc.unicodeDecodeErr
    | some text => Except.ok text

/-- `is_namespace` from src/pypi.py applied to a file's raw bytes: read
the text (via `open`), then test size and pattern.  The decorators
`@apply(bool)` and `@suppress(SyntaxError)` turn a raised `SyntaxError`
into `False`; any other exception (in particular `UnicodeDecodeError`
from `strm.read()`) propagates. -/
def is_namespace_file (file : List Nat) : Except PyExc Bool :=
  match pyReadText file with
  | Except.ok text => Except.ok (is_namespace text)
  | Except.error PyExc.syntaxErr => Except.ok false
  | Except.error e => Except.error e

/-- ASCII bytes of a character list (usable only for ASCII text). -/
def asciiBytes (s : List Char) : List Nat :=
  s.map Char.toNat

/-- A file whose first two lines are valid UTF-8 (and carry no coding
cookie) but whose later bytes are not decodable: encoding detection
succeeds with UTF-8, then `strm.read()` raises `UnicodeDecodeError`. -/
def badUtf8File : List Nat :=
  asciiBytes "#a\n#b\n".toList ++ [0xFF]

/-- The latin-1 doctest file of `is_namespace`: a coding cookie, a
latin-1 byte (0xC6, not valid UTF-8 here), and the pkgutil idiom. -/
def latin1File : List Nat :=
  asciiBytes "# -*- coding: latin-1 -*-\n".toList ++
    [0x22, 0xC6, 0x22, 10] ++ asciiBytes pkgutilIdiom

/-- A UTF-8 file of more than 1024 bytes whose decoded text has fewer
than 1024 characters and declares a namespace: 500 copies of U+00E9
(2 bytes each) after the pkgutil idiom. -/
def bigNsFile : List Nat :=
  asciiBytes pkgutilIdiom ++ (List.replicate 500 [0xC3, 0xA9]).flatten

example : detect_encoding badUtf8File = Except.ok Encoding.utf8 := by decide
example : is_namespace_file badUtf8File =
    Except.error PyExc.unicodeDecodeErr := by decide
example : detect_encoding latin1File = Except.ok Encoding.latin1 := by decide
example : is_namespace_file latin1File = Except.ok true := by decide
example : decodeUtf8 latin1File = none := by decide

example : top "foo.bar".toList = "foo".toList := by decide
example : top "foo".toList = [] := by decide
example : parent "foo.bar.baz".toList = "foo.bar".toList := by decide

example : find_roots ["boto3".toList, "boto3.docs".toList, "spare".toList] =
    ["boto3".toList, "spare".toList] := by decide

example : prefixList ["a".toList, "b".toList, "c".toList] =
    ["a.b.c".toList, "a.b".toList, "a".toList] := by decide

/-! ### Lemmas about partitioning and dotted names -/

theorem pyPartition_not_mem {c : Char} {s : List Char} (h : c ∉ s) :
    pyPartition c s = (s, [], []) := by
  induction s with
  | nil => rfl
  | cons x xs ih =>
    have hx : ¬x = c := fun he => h (he ▸ List.mem_cons_self x xs)
    have hxs : c ∉ xs := fun hm => h (List.mem_cons_of_mem _ hm)
    simp [pyPartition, hx, ih hxs]

theorem pyPartition_split {c : Char} {a : List Char} (b : List Char)
    (h : c ∉ a) : pyPartition c (a ++ c :: b) = (a, [c], b) := by
  induction a with
  | nil => simp [pyPartition]
  | cons x xs ih =>
    have hx : ¬x = c := fun he => h (he ▸ List.mem_cons_self x xs)
    have hxs : c ∉ xs := fun hm => h (List.mem_cons_of_mem _ hm)
    simp [pyPartition, hx, ih hxs]

theorem pyRPartition_not_mem {c : Char} {s : List Char} (h : c ∉ s) :
    pyRPartition c s = ([], [], s) := by
  induction s with
  | nil => rfl
  | cons x xs ih =>
    have hx : ¬x = c := fun he => h (he ▸ List.mem_cons_self x xs)
    have hxs : c ∉ xs := fun hm => h (List.mem_cons_of_mem _ hm)
    simp [pyRPartition, hx, ih hxs]

theorem pyRPartition_split {c : Char} {b : List Char} (a : List Char)
    (h : c ∉ b) : pyRPartition c (a ++ c :: b) = (a, [c], b) := by
  induction a with
  | nil => simp [pyRPartition, pyRPartition_not_mem h]
  | cons x xs ih => simp [pyRPartition, ih]

theorem joinDots_cons (s : List Char) {rest : List (List Char)}
    (h : rest ≠ []) : joinDots (s :: rest) = s ++ '.' :: joinDots rest := by
  cases rest with
  | nil => exact absurd rfl h
  | cons y ys => rfl

theorem joinDots_concat {init : List (List Char)} (last : List Char)
    (h : init ≠ []) :
    joinDots (init ++ [last]) = joinDots init ++ '.' :: last := by
  induction init with
  | nil => exact absurd rfl h
  | cons x xs ih =>
    cases xs with
    | nil => rfl
    | cons y ys =>
      have h1 : joinDots ((x :: y :: ys) ++ [last]) =
          x ++ '.' :: joinDots ((y :: ys) ++ [last]) := rfl
      rw [h1, ih (by simp), joinDots_cons x (by simp)]
      simp [List.append_assoc]

theorem joinDots_ne_nil {segs : List (List Char)} (h : segs ≠ [])
    (h2 : ∀ s ∈ segs, s ≠ []) : joinDots segs ≠ [] := by
  cases segs with
  | nil => exact absurd rfl h
  | cons s rest =>
    cases rest with
    | nil => exact h2 s (by simp)
    | cons y ys => simp [joinDots]

theorem top_single {s : List Char} (h : '.' ∉ s) : top s = [] := by
  simp [top, pyPartition_not_mem h]

theorem parent_single {s : List Char} (h : '.' ∉ s) : parent s = [] := by
  simp [parent, pyRPartition_not_mem h]

theorem top_multi {s : List Char} {rest : List (List Char)} (h : '.' ∉ s)
    (hr : rest ≠ []) : top (joinDots (s :: rest)) = s := by
  rw [joinDots_cons s hr]
  simp [top, pyPartition_split _ h]

theorem parent_multi {init : List (List Char)} {last : List Char}
    (h : init ≠ []) (hl : '.' ∉ last) :
    parent (joinDots (init ++ [last])) = joinDots init := by
  rw [joinDots_concat last h]
  simp [parent, pyRPartition_split _ hl]

theorem pyRPartition_fst_length (c : Char) (s : List Char) :
    (pyRPartition c s).1.length < s.length ∨ (pyRPartition c s).1 = [] := by
  induction s with
  | nil => right; rfl
  | cons x xs ih =>
    by_cases hsep : (pyRPartition c xs).2.1 = []
    · right
      simp only [pyRPartition, if_pos hsep]
      by_cases hx : x = c <;> simp [hx]
    · left
      simp only [pyRPartition, if_neg hsep, List.length_cons]
      have hxs : xs ≠ [] := by
        intro hn
        rw [hn] at hsep
        exact hsep rfl
      rcases ih with hlt | hnil
      · omega
      · rw [hnil]
        have : 0 < xs.length := List.length_pos.mpr hxs
        simp only [List.length_nil]
        omega

theorem all_names_fuel_stable : ∀ f1 f2 (s : List Char), s.length ≤ f1 →
    s.length ≤ f2 → all_names_fuel f1 s = all_names_fuel f2 s := by
  intro f1
  induction f1 with
  | zero =>
    intro f2 s h1 _
    have hs : s = [] := List.length_eq_zero.mp (Nat.le_zero.mp h1)
    subst hs
    cases f2 <;> simp [all_names_fuel, pyRPartition]
  | succ n ih =>
    intro f2 s h1 h2
    cases f2 with
    | zero =>
      have hs : s = [] := List.length_eq_zero.mp (Nat.le_zero.mp h2)
      subst hs
      simp [all_names_fuel, pyRPartition]
    | succ m =>
      simp only [all_names_fuel]
      by_cases hf : (pyRPartition '.' s).1 = []
      · simp [hf]
      · simp only [if_neg hf]
        have hlt : (pyRPartition '.' s).1.length < s.length := by
          rcases pyRPartition_fst_length '.' s with h | h
          · exact h
          · exact absurd h hf
        rw [ih m _ (by omega) (by omega)]

theorem all_names_unfold (s : List Char) : all_names s =
    if (pyRPartition '.' s).1 = [] then [s]
    else s :: all_names (pyRPartition '.' s).1 := by
  unfold all_names
  cases hl : s.length with
  | zero =>
    have hs : s = [] := List.length_eq_zero.mp hl
    subst hs
    simp [all_names_fuel, pyRPartition]
  | succ n =>
    simp only [all_names_fuel]
    by_cases hf : (pyRPartition '.' s).1 = []
    · simp [hf]
    · simp only [if_neg hf]
      have hlt : (pyRPartition '.' s).1.length < s.length := by
        rcases pyRPartition_fst_length '.' s with h | h
        · exact h
        · exact absurd h hf
      rw [all_names_fuel_stable n _ _ (by omega) (le_refl _)]

theorem prefixList_concat (init : List (List Char)) (last : List Char) :
    prefixList (init ++ [last]) =
      joinDots (init ++ [last]) :: prefixList init := by
  unfold prefixList
  have hlen : (init ++ [last]).length = init.length + 1 := by simp
  rw [hlen]
  simp only [prefixList_fuel]
  rw [if_neg (by simp), List.dropLast_concat]

theorem all_names_joinDots : ∀ segs : List (List Char), segs ≠ [] →
    (∀ s ∈ segs, s ≠ [] ∧ '.' ∉ s) →
    all_names (joinDots segs) = prefixList segs := by
  intro segs
  induction segs using List.reverseRecOn with
  | nil => intro h; exact absurd rfl h
  | append_singleton init last ih =>
    intro _ hwf
    by_cases hinit : init = []
    · subst hinit
      have hlast : '.' ∉ last := (hwf last (by simp)).2
      rw [all_names_unfold]
      have hjs : joinDots [last] = last := rfl
      simp only [List.nil_append, hjs, pyRPartition_not_mem hlast, if_pos rfl]
      simp [prefixList, prefixList_fuel, hjs]
    · have hwf_init : ∀ s ∈ init, s ≠ [] ∧ '.' ∉ s :=
        fun s hs => hwf s (by simp [hs])
      have hlast : '.' ∉ last := (hwf last (by simp)).2
      have hne : joinDots init ≠ [] :=
        joinDots_ne_nil hinit fun s hs => (hwf_init s hs).1
      rw [all_names_unfold, joinDots_concat last hinit,
        pyRPartition_split (joinDots init) hlast]
      simp only [if_neg hne]
      rw [ih hinit hwf_init, prefixList_concat, joinDots_concat last hinit]

/-! ### Lemmas about the name minimizer -/

theorem contains_true_iff {l : List (List Char)} {a : List Char} :
    l.contains a = true ↔ a ∈ l := List.elem_iff

theorem contains_false_iff {l : List (List Char)} {a : List Char} :
    l.contains a = false ↔ a ∉ l := by
  rw [← Bool.not_eq_true]
  exact not_congr contains_true_iff

theorem mem_find_roots {ps : List (List Char)} {n : List Char} :
    n ∈ find_roots ps ↔ n ∈ ps ∧ top n ∉ ps ∧ parent n ∉ ps := by
  simp only [find_roots, List.mem_filter, Bool.and_eq_true, Bool.not_eq_true',
    contains_false_iff]

theorem find_roots_of_minimal {ps : List (List Char)}
    (h : ∀ n ∈ ps, top n ∉ ps ∧ parent n ∉ ps) : find_roots ps = ps := by
  apply List.filter_eq_self.mpr
  intro a ha
  simp only [Bool.and_eq_true, Bool.not_eq_true', contains_false_iff]
  exact h a ha

theorem find_roots_idem (ps : List (List Char)) :
    find_roots (find_roots ps) = find_roots ps := by
  conv_lhs => rw [find_roots]
  apply List.filter_eq_self.mpr
  intro a ha
  rcases mem_find_roots.mp ha with ⟨_, htop, hpar⟩
  simp only [Bool.and_eq_true, Bool.not_eq_true', contains_false_iff]
  exact ⟨fun hm => htop (List.mem_of_mem_filter hm),
    fun hm => hpar (List.mem_of_mem_filter hm)⟩

theorem find_roots_sublist (ps : List (List Char)) :
    (find_roots ps).Sublist ps := List.filter_sublist ps

theorem count_find_roots (ps : List (List Char)) (n : List Char) :
    (find_roots ps).count n =
      if !(ps.contains (top n)) && !(ps.contains (parent n)) then ps.count n
      else 0 := by
  by_cases h : (!(ps.contains (top n)) && !(ps.contains (parent n))) = true
  · rw [if_pos h]
    exact List.count_filter h
  · rw [if_neg h]
    rw [List.count_eq_zero]
    intro hm
    rcases List.mem_filter.mp hm with ⟨_, hp⟩
    exact h hp

/-! ### Lemmas about the resolver -/

theorem findSome_first {α β : Type} (f : α → Option β) (pre : List α)
    (c : α) (post : List α) (b : β) (hpre : ∀ p ∈ pre, f p = none)
    (hc : f c = some b) : (pre ++ c :: post).findSome? f = some b := by
  induction pre with
  | nil => simp [List.findSome?_cons, hc]
  | cons p ps ih =>
    have hp : f p = none := hpre p (by simp)
    simp only [List.cons_append, List.findSome?_cons, hp]
    exact ih fun q hq => hpre q (by simp [hq])

theorem distribution_for_first_match (store : Store) (n : List Char)
    (pre : List (List Char)) (c : List Char) (post : List (List Char))
    (rec : DistRecord) (nm : List Char)
    (hsplit : all_names n = pre ++ c :: post)
    (hpre : ∀ p ∈ pre, is_root store p = none)
    (hc : is_root store c = some rec) (hnm : rec.name = some nm) :
    distribution_for store n = Except.ok nm := by
  unfold distribution_for
  rw [hsplit, findSome_first _ pre c post rec hpre hc]
  simp [hnm]

theorem distribution_for_unmatched (store : Store) (n : List Char)
    (h : ∀ rec ∈ store, ∀ cand ∈ all_names n, rootsHas rec cand = false) :
    distribution_for store n = Except.error PyExc.stopIteration := by
  unfold distribution_for
  have hnone : (all_names n).findSome? (fun c => is_root store c) = none := by
    apply List.findSome?_eq_none_iff.mpr
    intro cand hcand
    apply List.find?_eq_none.mpr
    intro rec hrec
    simp [h rec hrec cand hcand]
  rw [hnone]

/-! ### Lemmas about pattern search -/

theorem suffix_of_suffix_length_le {α : Type} {l1 l2 l3 : List α}
    (h1 : l1 <:+ l3) (h2 : l2 <:+ l3) (h : l1.length ≤ l2.length) :
    l1 <:+ l2 := by
  have hp := List.prefix_of_prefix_length_le (List.reverse_prefix.mpr h1)
    (List.reverse_prefix.mpr h2) (by simpa using h)
  simpa using List.reverse_prefix.mp hp

theorem searchAfter_decomp {p t r : List Char}
    (h : searchAfter p t = some r) : ∃ a, t = a ++ p ++ r := by
  induction t with
  | nil =>
    simp only [searchAfter] at h
    by_cases hp : p.isEmpty
    · rw [if_pos hp] at h
      injection h with h'
      refine ⟨[], ?_⟩
      rw [← h', List.isEmpty_iff.mp hp]
      rfl
    · rw [if_neg hp] at h
      exact absurd h (by simp)
  | cons c cs ih =>
    simp only [searchAfter] at h
    by_cases hp : p.isPrefixOf (c :: cs)
    · rw [if_pos hp] at h
      injection h with h'
      obtain ⟨rest, hrest⟩ := List.isPrefixOf_iff_prefix.mp hp
      refine ⟨[], ?_⟩
      rw [← h', ← hrest]
      simp [List.drop_left]
    · rw [if_neg hp] at h
      obtain ⟨a, ha⟩ := ih h
      exact ⟨c :: a, by simp [ha]⟩

theorem searchAfter_self (p r : List Char) : searchAfter p (p ++ r) = some r := by
  cases p with
  | nil =>
    cases r with
    | nil => rfl
    | cons c cs => simp [searchAfter]
  | cons x xs =>
    have hp : (x :: xs).isPrefixOf (x :: (xs ++ r)) = true :=
      List.isPrefixOf_iff_prefix.mpr ⟨r, by simp⟩
    show searchAfter (x :: xs) (x :: (xs ++ r)) = some r
    simp only [searchAfter, if_pos hp]
    simp [List.drop_left]

theorem searchAfter_suffix {p t t' r : List Char} (hsuf : t <:+ t')
    (hs : searchAfter p t = some r) :
    ∃ r', searchAfter p t' = some r' ∧ r <:+ r' := by
  obtain ⟨a, rfl⟩ := hsuf
  induction a with
  | nil => exact ⟨r, by simpa using hs, List.suffix_refl r⟩
  | cons x a ih =>
    obtain ⟨r1, h1, hs1⟩ := ih
    by_cases hp : p.isPrefixOf (x :: (a ++ t))
    · refine ⟨(x :: (a ++ t)).drop p.length, ?_, ?_⟩
      · show searchAfter p (x :: (a ++ t)) = _
        simp only [searchAfter, if_pos hp]
      · obtain ⟨b, hb⟩ := searchAfter_decomp h1
        have hr1t : r1 <:+ (a ++ t) := ⟨b ++ p, hb.symm⟩
        have hr1 : r1 <:+ x :: (a ++ t) :=
          hr1t.trans (List.suffix_cons x (a ++ t))
        have hd : (x :: (a ++ t)).drop p.length <:+ x :: (a ++ t) :=
          List.drop_suffix _ _
        have hlb : (a ++ t).length = b.length + p.length + r1.length := by
          simp [hb]
          omega
        have hlen : r1.length ≤ ((x :: (a ++ t)).drop p.length).length := by
          simp only [List.length_drop, List.length_cons]
          omega
        exact hs1.trans (suffix_of_suffix_length_le hr1 hd hlen)
    · refine ⟨r1, ?_, hs1⟩
      show searchAfter p (x :: (a ++ t)) = some r1
      simp only [searchAfter, if_neg hp]
      exact h1

theorem seqSearch_suffix : ∀ {ps : List (List Char)} {t t' : List Char},
    t <:+ t' → seqSearch ps t = true → seqSearch ps t' = true := by
  intro ps
  induction ps with
  | nil => intro t t' _ _; rfl
  | cons p ps ih =>
    intro t t' hsuf h
    simp only [seqSearch] at h ⊢
    cases hsa : searchAfter p t with
    | none =>
      rw [hsa] at h
      exact absurd h (by simp)
    | some r =>
      rw [hsa] at h
      obtain ⟨r', h', hs⟩ := searchAfter_suffix hsuf hsa
      rw [h']
      exact ih hs h

theorem SeqDecomp_seqSearch : ∀ (ps : List (List Char)) (t : List Char),
    SeqDecomp ps t → seqSearch ps t = true := by
  intro ps
  induction ps with
  | nil => intro t _; rfl
  | cons p ps ih =>
    intro t hd
    obtain ⟨a, r, rfl, hrest⟩ := hd
    have hsuf : (p ++ r) <:+ (a ++ p ++ r) := ⟨a, (List.append_assoc a p r).symm⟩
    obtain ⟨r', h', hs⟩ := searchAfter_suffix hsuf (searchAfter_self p r)
    simp only [seqSearch, h']
    exact seqSearch_suffix hs (ih r hrest)

theorem seqSearch_SeqDecomp : ∀ (ps : List (List Char)) (t : List Char),
    seqSearch ps t = true → SeqDecomp ps t := by
  intro ps
  induction ps with
  | nil => intro t _; trivial
  | cons p ps ih =>
    intro t h
    simp only [seqSearch] at h
    cases hsa : searchAfter p t with
    | none =>
      rw [hsa] at h
      exact absurd h (by simp)
    | some r =>
      rw [hsa] at h
      obtain ⟨a, ha⟩ := searchAfter_decomp hsa
      exact ⟨a, r, ha, ih r h⟩

theorem SeqDecomp_infix : ∀ (ps : List (List Char)) (t pre post : List Char),
    SeqDecomp ps t → SeqDecomp ps (pre ++ t ++ post) := by
  intro ps
  induction ps with
  | nil => intro t pre post _; trivial
  | cons p ps ih =>
    intro t pre post hd
    obtain ⟨a, r, rfl, hrest⟩ := hd
    refine ⟨pre ++ a, r ++ post, ?_, ?_⟩
    · simp [List.append_assoc]
    · simpa using ih r [] post hrest

theorem matchesNs_iff (t : List Char) : matchesNs t ↔ nsSearch t = true := by
  unfold matchesNs nsSearch
  constructor
  · rintro ⟨g, hg, s, hs, hd⟩
    exact List.any_eq_true.mpr
      ⟨g, hg, List.any_eq_true.mpr ⟨s, hs, SeqDecomp_seqSearch _ _ hd⟩⟩
  · intro h
    obtain ⟨g, hg, h2⟩ := List.any_eq_true.mp h
    obtain ⟨s, hs, h3⟩ := List.any_eq_true.mp h2
    exact ⟨g, hg, s, hs, seqSearch_SeqDecomp _ _ h3⟩

theorem matchesNs_infix {t : List Char} (pre post : List Char)
    (h : matchesNs t) : matchesNs (pre ++ t ++ post) := by
  obtain ⟨g, hg, s, hs, hd⟩ := h
  exact ⟨g, hg, s, hs, SeqDecomp_infix _ _ _ _ hd⟩

theorem is_namespace_iff (t : List Char) :
    is_namespace t = true ↔ t.length < 1024 ∧ matchesNs t := by
  unfold is_namespace
  rw [Bool.and_eq_true, decide_eq_true_eq, matchesNs_iff]

/-! ### Lemmas about the crawler and the store -/

theorem from_wheel_ok_good {now : Nat} {id : List Char} {o : FetchOutcome}
    {upd : DistRecord} (h : from_wheel now id o = Except.ok upd) :
    upd.id = id ∧ goodRec upd = true := by
  cases o with
  | ok nm names =>
    simp only [from_wheel] at h
    injection h with h'
    subst h'
    simp [goodRec]
  | raise e =>
    simp only [from_wheel] at h
    by_cases hc : caughtByFromWheel e
    · rw [if_pos hc] at h
      injection h with h'
      subst h'
      simp [goodRec]
    · rw [if_neg hc] at h
      cases h

theorem from_wheel_raiseOnlyCaught (now : Nat) (id : List Char)
    {o : FetchOutcome} (h : raiseOnlyCaught o = true) :
    ∃ upd, from_wheel now id o = Except.ok upd := by
  cases o with
  | ok nm names => exact ⟨_, rfl⟩
  | raise e =>
    simp only [raiseOnlyCaught] at h
    exact ⟨{ id := id, error := some (excStr e), updated := some now },
      by simp [from_wheel, h]⟩

theorem setFields_good {old upd : DistRecord} (h : goodRec upd = true) :
    goodRec (setFields old upd) = true := by
  simp only [goodRec, setFields, Bool.and_eq_true, Bool.or_eq_true] at h ⊢
  obtain ⟨hu, he⟩ := h
  constructor
  · cases hupd : upd.updated with
    | none => rw [hupd] at hu; simp at hu
    | some v => simp [hupd, Option.orElse]
  · rcases he with he | hr
    · left
      cases hupd : upd.error with
      | none => rw [hupd] at he; simp at he
      | some v => simp [hupd, Option.orElse]
    · right
      cases hupd : upd.roots with
      | none => rw [hupd] at hr; simp at hr
      | some v => simp [hupd, Option.orElse]

theorem upsert_adds_good : ∀ (store : Store) {upd : DistRecord},
    goodRec upd = true →
    ∃ rec ∈ upsert store upd, rec.id = upd.id ∧ goodRec rec = true := by
  intro store
  induction store with
  | nil => intro upd h; exact ⟨upd, by simp [upsert], rfl, h⟩
  | cons r rest ih =>
    intro upd h
    by_cases hid : r.id = upd.id
    · refine ⟨setFields r upd, ?_, rfl, setFields_good h⟩
      simp [upsert, hid]
    · obtain ⟨rec, hm, hrid, hg⟩ := ih h
      refine ⟨rec, ?_, hrid, hg⟩
      simp only [upsert, if_neg hid]
      exact List.mem_cons_of_mem _ hm

theorem upsert_keeps_good {upd : DistRecord} (hupd : goodRec upd = true) :
    ∀ (store : Store) (tid : List Char),
    (∃ rec ∈ store, rec.id = tid ∧ goodRec rec = true) →
    ∃ rec ∈ upsert store upd, rec.id = tid ∧ goodRec rec = true := by
  intro store
  induction store with
  | nil =>
    intro tid h
    obtain ⟨rec, hm, _⟩ := h
    simp at hm
  | cons r rest ih =>
    intro tid h
    obtain ⟨rec, hm, hid, hg⟩ := h
    by_cases hrid : r.id = upd.id
    · rcases List.mem_cons.mp hm with rfl | hmem
      · refine ⟨setFields rec upd, by simp [upsert, hrid], ?_, setFields_good hupd⟩
        show upd.id = tid
        rw [← hrid]
        exact hid
      · exact ⟨rec, by simp [upsert, hrid, hmem], hid, hg⟩
    · rcases List.mem_cons.mp hm with rfl | hmem
      · exact ⟨rec, by simp [upsert, hrid], hid, hg⟩
      · obtain ⟨rec', hm', hid', hg'⟩ := ih tid ⟨rec, hmem, hid, hg⟩
        refine ⟨rec', ?_, hid', hg'⟩
        simp only [upsert, if_neg hrid]
        exact List.mem_cons_of_mem _ hm'

theorem crawl_keeps_good (env : List Char → FetchOutcome) (now : Nat) :
    ∀ (ds : List (List Char)) (store : Store) (tid : List Char),
    (∃ rec ∈ store, rec.id = tid ∧ goodRec rec = true) →
    ∃ rec ∈ (crawl env now ds store).1, rec.id = tid ∧ goodRec rec = true := by
  intro ds
  induction ds with
  | nil => intro store tid h; exact h
  | cons d ds ih =>
    intro store tid h
    cases hfw : from_wheel now d (env d) with
    | ok upd =>
      have hstep : crawl env now (d :: ds) store =
          crawl env now ds (upsert store upd) := by
        simp [crawl, hfw]
      rw [hstep]
      exact ih _ tid (upsert_keeps_good (from_wheel_ok_good hfw).2 store tid h)
    | error e =>
      have hstep : crawl env now (d :: ds) store = (store, some e) := by
        simp [crawl, hfw]
      rw [hstep]
      exact h

theorem crawl_total (env : List Char → FetchOutcome) (now : Nat) :
    ∀ (dists : List (List Char)) (store : Store),
    (∀ d ∈ dists, raiseOnlyCaught (env d) = true) →
    (crawl env now dists store).2 = none ∧
      ∀ d ∈ dists, ∃ rec ∈ (crawl env now dists store).1,
        rec.id = d ∧ goodRec rec = true := by
  intro dists
  induction dists with
  | nil => intro store _; exact ⟨rfl, by simp⟩
  | cons d ds ih =>
    intro store hall
    obtain ⟨upd, hfw⟩ := from_wheel_raiseOnlyCaught now d (hall d (by simp))
    have hstep : crawl env now (d :: ds) store =
        crawl env now ds (upsert store upd) := by
      simp [crawl, hfw]
    rw [hstep]
    have ihres := ih (upsert store upd) fun d' hd' => hall d' (by simp [hd'])
    refine ⟨ihres.1, ?_⟩
    intro d' hd'
    rcases List.mem_cons.mp hd' with rfl | hmem
    · obtain ⟨hid, hg⟩ := from_wheel_ok_good hfw
      obtain ⟨rec, hm, hrid, hgr⟩ := upsert_adds_good store hg
      exact crawl_keeps_good env now ds (upsert store upd) d'
        ⟨rec, hm, by rw [hrid, hid], hgr⟩
    · exact ihres.2 d' hmem

theorem from_wheel_outcome {now : Nat} {id : List Char} {o : FetchOutcome}
    {upd : DistRecord} (h : from_wheel now id o = Except.ok upd) :
    upd.updated = some now ∧
      ((upd.roots.isSome = true ∧ upd.error = none) ∨
        (upd.error.isSome = true ∧ upd.roots = none)) := by
  cases o with
  | ok nm names =>
    simp only [from_wheel] at h
    injection h with h'
    subst h'
    simp
  | raise e =>
    simp only [from_wheel] at h
    by_cases hc : caughtByFromWheel e
    · rw [if_pos hc] at h
      injection h with h'
      subst h'
      simp
    · rw [if_neg hc] at h
      cases h

theorem mem_unprocessed {store : Store} {rec : DistRecord}
    (hm : rec ∈ store) (hu : rec.updated = none) :
    rec.id ∈ unprocessed store := by
  simp only [unprocessed, List.mem_map]
  exact ⟨rec, List.mem_filter.mpr ⟨hm, by simp [hu]⟩, rfl⟩

theorem unprocessed_mem {store : Store} {id : List Char}
    (h : id ∈ unprocessed store) :
    ∃ rec ∈ store, rec.id = id ∧ rec.updated = none := by
  simp only [unprocessed, List.mem_map] at h
  obtain ⟨rec, hm, hid⟩ := h
  have hf := List.mem_filter.mp hm
  exact ⟨rec, hf.1, hid, by simpa using hf.2⟩

/-! ### Lemmas about the fetcher -/

theorem wheel_select_none {info : ProjectInfo} (h : info.urls = none) :
    wheel_select info = Except.error (PyExc.valueErr "No dists".toList) := by
  simp [wheel_select, h]

theorem find?_first {α : Type} (p : α → Bool) :
    ∀ (pre : List α) (a : α) (post : List α), (∀ x ∈ pre, p x = false) →
    p a = true → (pre ++ a :: post).find? p = some a := by
  intro pre
  induction pre with
  | nil =>
    intro a post _ ha
    rw [List.nil_append]
    exact List.find?_cons_of_pos _ ha
  | cons q qs ih =>
    intro a post hpre ha
    rw [List.cons_append,
      List.find?_cons_of_neg _ (by rw [hpre q (by simp)]; simp)]
    exact ih a post (fun x hx => hpre x (by simp [hx])) ha

theorem wheel_select_first {info : ProjectInfo} {l pre post : List Asset}
    {a : Asset} (h : info.urls = some l) (hsplit : l = pre ++ a :: post)
    (hpre : ∀ p ∈ pre, ".whl".toList.isSuffixOf p.filename = false)
    (ha : ".whl".toList.isSuffixOf a.filename = true) :
    wheel_select info = Except.ok a := by
  subst hsplit
  simp only [wheel_select, h]
  rw [find?_first _ pre a post hpre ha]

theorem wheel_select_nowhl {info : ProjectInfo} {l : List Asset}
    (h : info.urls = some l)
    (hall : ∀ u ∈ l, ".whl".toList.isSuffixOf u.filename = false) :
    wheel_select info = Except.error (PyExc.valueErr "No wheels".toList) := by
  simp only [wheel_select, h]
  have hnone : l.find? (fun u => ".whl".toList.isSuffixOf u.filename) = none := by
    apply List.find?_eq_none.mpr
    intro u hu
    show ¬(".whl".toList.isSuffixOf u.filename = true)
    rw [hall u hu]
    simp
  rw [hnone]

/-! ### Claim theorems -/

/-- C1 counterexample: on an index whose records' roots match neither
the import name nor any dotted ancestor, `distribution_for` raises
`StopIteration` (an exception), not an ordinary `Unresolved` value. -/
theorem c1_counterexample :
    distribution_for store404 "requests".toList =
      Except.error PyExc.stopIteration := by decide

/-- C1 (amended): for every dotted import name such that no record in the
index has a roots set containing the name or any of its dotted ancestors,
the resolver raises `StopIteration` (there is no `Unresolved` return
value in the code; `next` is called without a default). -/
theorem c1_resolver_unmatched_raises (store : Store) (n : List Char)
    (h : ∀ rec ∈ store, ∀ cand ∈ all_names n, rootsHas rec cand = false) :
    distribution_for store n = Except.error PyExc.stopIteration :=
  distribution_for_unmatched store n h

/-- C1 witness: the amended theorem applied to a concrete index and a
concrete import name. -/
theorem c1_witness :
    (∀ rec ∈ store404, ∀ cand ∈ all_names "requests".toList,
      rootsHas rec cand = false) ∧
    distribution_for store404 "requests".toList =
      Except.error PyExc.stopIteration :=
  ⟨by decide, c1_resolver_unmatched_raises store404 "requests".toList (by decide)⟩

/-- C3: the resolver's candidates for a dotted name are the name and its
dotted ancestors, most specific first (`all_names` of a joined segment
list is the descending prefix list); the index is queried in that order
and the first matching record's canonical name is returned; concretely,
with both `a.b.c` and `a.b` indexed (the `a.b` owner first in store
order) resolving `a.b.c` returns the owner of `a.b.c`, and with only
`a.b` indexed it returns the owner of `a.b`. -/
theorem c3_resolver_most_specific_first :
    (∀ segs : List (List Char), segs ≠ [] → (∀ s ∈ segs, s ≠ [] ∧ '.' ∉ s) →
      all_names (joinDots segs) = prefixList segs) ∧
    (∀ (store : Store) (n : List Char) (pre : List (List Char)) (c : List Char)
      (post : List (List Char)) (rec : DistRecord) (nm : List Char),
      all_names n = pre ++ c :: post → (∀ p ∈ pre, is_root store p = none) →
      is_root store c = some rec → rec.name = some nm →
      distribution_for store n = Except.ok nm) ∧
    distribution_for storeAB_ABC "a.b.c".toList = Except.ok "d-abc".toList ∧
    distribution_for storeAB "a.b.c".toList = Except.ok "d-ab".toList :=
  ⟨all_names_joinDots,
   fun store n pre c post rec nm h1 h2 h3 h4 =>
     distribution_for_first_match store n pre c post rec nm h1 h2 h3 h4,
   by decide, by decide⟩

/-- C3 witness: the two universally quantified parts applied to concrete
inputs. -/
theorem c3_witness :
    all_names (joinDots ["a".toList, "b".toList, "c".toList]) =
      prefixList ["a".toList, "b".toList, "c".toList] ∧
    distribution_for storeAB_ABC "a.b.c".toList = Except.ok "d-abc".toList :=
  ⟨c3_resolver_most_specific_first.1 ["a".toList, "b".toList, "c".toList]
    (by decide) (by decide),
   c3_resolver_most_specific_first.2.1 storeAB_ABC "a.b.c".toList []
    "a.b.c".toList ["a.b".toList, "a".toList] recABC "d-abc".toList
    (by decide) (by decide) (by decide) (by decide)⟩

/-- C4: `find_roots` keeps exactly the names whose `top` and `parent` are
both absent from the full original input (single filter pass); `top` of a
single-segment name and `parent` of a single-segment name are empty
(absent), `top` of a multi-segment name is its first segment, `parent`
is all but the last segment; and
`find_roots ["boto3", "boto3.docs", "spare"] = ["boto3", "spare"]`. -/
theorem c4_minimizer_membership :
    (∀ (ps : List (List Char)) (n : List Char),
      n ∈ find_roots ps ↔ n ∈ ps ∧ top n ∉ ps ∧ parent n ∉ ps) ∧
    (∀ s : List Char, '.' ∉ s → top s = [] ∧ parent s = []) ∧
    (∀ (s : List Char) (rest : List (List Char)), '.' ∉ s → rest ≠ [] →
      top (joinDots (s :: rest)) = s) ∧
    (∀ (init : List (List Char)) (last : List Char), init ≠ [] → '.' ∉ last →
      parent (joinDots (init ++ [last])) = joinDots init) ∧
    find_roots ["boto3".toList, "boto3.docs".toList, "spare".toList] =
      ["boto3".toList, "spare".toList] :=
  ⟨fun _ _ => mem_find_roots, fun _ h => ⟨top_single h, parent_single h⟩,
   fun _ _ h hr => top_multi h hr, fun _ _ h hl => parent_multi h hl,
   by decide⟩

/-- C4 witness: the hypothesis-bearing parts applied to concrete names. -/
theorem c4_witness :
    (top "spare".toList = [] ∧ parent "spare".toList = []) ∧
    top (joinDots ["boto3".toList, "docs".toList]) = "boto3".toList ∧
    parent (joinDots (["boto3".toList] ++ ["docs".toList])) =
      joinDots ["boto3".toList] :=
  ⟨c4_minimizer_membership.2.1 "spare".toList (by decide),
   c4_minimizer_membership.2.2.1 "boto3".toList ["docs".toList]
     (by decide) (by decide),
   c4_minimizer_membership.2.2.2.1 ["boto3".toList] "docs".toList
     (by decide) (by decide)⟩

/-- C8: the minimizer is idempotent — an input in which no member's `top`
or `parent` also occurs is returned unchanged, and applying `find_roots`
to its own output returns that output. -/
theorem c8_minimizer_idempotent :
    (∀ ps : List (List Char), (∀ n ∈ ps, top n ∉ ps ∧ parent n ∉ ps) →
      find_roots ps = ps) ∧
    ∀ ps : List (List Char), find_roots (find_roots ps) = find_roots ps :=
  ⟨fun _ h => find_roots_of_minimal h, find_roots_idem⟩

/-- C8 witness: the already-minimal part applied to a concrete set. -/
theorem c8_witness :
    find_roots ["boto3".toList, "spare".toList] =
      ["boto3".toList, "spare".toList] :=
  c8_minimizer_idempotent.1 ["boto3".toList, "spare".toList] (by decide)

/-- C10: the minimizer's output is a subsequence of its input (names are
drawn unchanged, in input order, nothing synthesized), and a name's
occurrence count is preserved when it is retained and zero when it is
dropped (duplicates are not collapsed). -/
theorem c10_minimizer_subsequence :
    (∀ ps : List (List Char), (find_roots ps).Sublist ps) ∧
    ∀ (ps : List (List Char)) (n : List Char), (find_roots ps).count n =
      if !(ps.contains (top n)) && !(ps.contains (parent n)) then ps.count n
      else 0 :=
  ⟨find_roots_sublist, count_find_roots⟩

/-- C9: the fetcher fails with `ValueError("No dists")` (the spec's
`NoReleases`) when the response has no `urls` list; otherwise it selects
the first asset whose filename ends in `.whl`, and fails with
`ValueError("No wheels")` (the spec's `NoBinaryArtifact`) when no asset
does. -/
theorem c9_fetcher_conditions :
    (∀ info : ProjectInfo, info.urls = none →
      wheel_select info = Except.error (PyExc.valueErr "No dists".toList)) ∧
    (∀ (info : ProjectInfo) (l pre post : List Asset) (a : Asset),
      info.urls = some l → l = pre ++ a :: post →
      (∀ p ∈ pre, ".whl".toList.isSuffixOf p.filename = false) →
      ".whl".toList.isSuffixOf a.filename = true →
      wheel_select info = Except.ok a) ∧
    (∀ (info : ProjectInfo) (l : List Asset), info.urls = some l →
      (∀ u ∈ l, ".whl".toList.isSuffixOf u.filename = false) →
      wheel_select info = Except.error (PyExc.valueErr "No wheels".toList)) :=
  ⟨fun _ h => wheel_select_none h,
   fun _ _ _ _ _ h1 h2 h3 h4 => wheel_select_first h1 h2 h3 h4,
   fun _ _ h1 h2 => wheel_select_nowhl h1 h2⟩

/-- C9 witness: the three conditions applied to concrete responses. -/
theorem c9_witness :
    wheel_select { urls := none } =
      Except.error (PyExc.valueErr "No dists".toList) ∧
    wheel_select { urls := some [sdistAsset, whlAsset] } =
      Except.ok whlAsset ∧
    wheel_select { urls := some [sdistAsset] } =
      Except.error (PyExc.valueErr "No wheels".toList) :=
  ⟨c9_fetcher_conditions.1 { urls := none } rfl,
   c9_fetcher_conditions.2.1 { urls := some [sdistAsset, whlAsset] }
     [sdistAsset, whlAsset] [sdistAsset] [] whlAsset rfl rfl
     (by decide) (by decide),
   c9_fetcher_conditions.2.2 { urls := some [sdistAsset] } [sdistAsset]
     rfl (by decide)⟩

/-- C7: every record `from_wheel` returns has exactly one of roots/error
populated and `updated` set; this survives the `$set` upsert when the
stored document had neither field; and the unprocessed records are
exactly those lacking `updated`. -/
theorem c7_record_outcome_invariant :
    (∀ (now : Nat) (id : List Char) (o : FetchOutcome) (upd : DistRecord),
      from_wheel now id o = Except.ok upd →
      upd.updated = some now ∧
        ((upd.roots.isSome = true ∧ upd.error = none) ∨
          (upd.error.isSome = true ∧ upd.roots = none))) ∧
    (∀ (old upd : DistRecord) (now : Nat) (id : List Char) (o : FetchOutcome),
      from_wheel now id o = Except.ok upd → old.roots = none →
      old.error = none →
      (setFields old upd).updated = some now ∧
        (((setFields old upd).roots.isSome = true ∧
            (setFields old upd).error = none) ∨
          ((setFields old upd).error.isSome = true ∧
            (setFields old upd).roots = none))) ∧
    (∀ (store : Store) (rec : DistRecord), rec ∈ store →
      rec.updated = none → rec.id ∈ unprocessed store) ∧
    (∀ (store : Store) (id : List Char), id ∈ unprocessed store →
      ∃ rec ∈ store, rec.id = id ∧ rec.updated = none) := by
  refine ⟨fun now id o upd h => from_wheel_outcome h, ?_,
    fun store rec hm hu => mem_unprocessed hm hu,
    fun store id h => unprocessed_mem h⟩
  intro old upd now id o h ho1 ho2
  obtain ⟨hu, hcase⟩ := from_wheel_outcome h
  constructor
  · simp [setFields, hu]
  · rcases hcase with ⟨hr, he⟩ | ⟨he, hr⟩
    · left
      constructor
      · cases hru : upd.roots with
        | none => rw [hru] at hr; simp at hr
        | some v => simp [setFields, hru]
      · simp [setFields, he, ho2]
    · right
      constructor
      · cases hre : upd.error with
        | none => rw [hre] at he; simp at he
        | some v => simp [setFields, hre]
      · simp [setFields, hr, ho1]

/-- C7 witness: the invariant at the concrete failing fetch of the 404
scenario, and the unprocessed characterization on a one-record store. -/
theorem c7_witness :
    from_wheel 7 dBeta (env404 dBeta) = Except.ok c7rec ∧
    (c7rec.updated = some 7 ∧
      ((c7rec.roots.isSome = true ∧ c7rec.error = none) ∨
        (c7rec.error.isSome = true ∧ c7rec.roots = none))) ∧
    dAlpha ∈ unprocessed [{ id := dAlpha }] :=
  ⟨by decide,
   c7_record_outcome_invariant.1 7 dBeta (env404 dBeta) c7rec (by decide),
   c7_record_outcome_invariant.2.2.1 [{ id := dAlpha }] { id := dAlpha }
     (by simp) (by decide)⟩

/-- C2 counterexample: when the middle distribution's fetch raises
`requests.exceptions.ConnectionError` (not caught by
`except (ValueError, HTTPError, KeyError)`), the crawl aborts: only one
record is upserted, no error record is written for the failing
distribution, and the third distribution is never processed — not the
3 records the claim requires. -/
theorem c2_counterexample :
    crawl envConnFail 7 [dAlpha, dBeta, dGamma] [] =
      ([{ id := dAlpha, name := some "Alpha".toList,
          roots := some ["alpha".toList], updated := some 7 }],
       some (PyExc.connErr "connection refused".toList)) ∧
    (crawl envConnFail 7 [dAlpha, dBeta, dGamma] []).1.length = 1 := by
  constructor <;> decide

/-- C2 (amended): when every fetch/inspection failure is of a class the
handler catches (`ValueError` — including `UnicodeDecodeError` —,
`HTTPError`, `KeyError`), every failing distribution gets an upserted
record with `error` and `updated` set, the crawl completes without
aborting, and every processed distribution ends with a record carrying
`updated` and one of `error`/`roots`; the 3-distribution scenario with
one HTTP 404 yields exactly 3 records, one with `error` and two with
`roots`. -/
theorem c2_crawl_amended :
    (∀ (env : List Char → FetchOutcome) (now : Nat) (dists : List (List Char))
      (store : Store), (∀ d ∈ dists, raiseOnlyCaught (env d) = true) →
      (crawl env now dists store).2 = none ∧
        ∀ d ∈ dists, ∃ rec ∈ (crawl env now dists store).1,
          rec.id = d ∧ goodRec rec = true) ∧
    crawl env404 7 [dAlpha, dBeta, dGamma] [] = (store404, none) ∧
    store404.length = 3 ∧
    (store404.filter fun r => r.error.isSome).length = 1 ∧
    (store404.filter fun r => r.roots.isSome).length = 2 :=
  ⟨fun env now => crawl_total env now, by decide, by decide, by decide,
   by decide⟩

/-- C2 witness: the universal part applied to the concrete 404 run. -/
theorem c2_witness :
    (∀ d ∈ [dAlpha, dBeta, dGamma], raiseOnlyCaught (env404 d) = true) ∧
    ((crawl env404 7 [dAlpha, dBeta, dGamma] []).2 = none ∧
      ∀ d ∈ [dAlpha, dBeta, dGamma],
        ∃ rec ∈ (crawl env404 7 [dAlpha, dBeta, dGamma] []).1,
          rec.id = d ∧ goodRec rec = true) :=
  ⟨by decide,
   c2_crawl_amended.1 env404 7 [dAlpha, dBeta, dGamma] [] (by decide)⟩

set_option maxRecDepth 20000 in
/-- C5 counterexample: a UTF-8 file of 1064 bytes (≥ the 1024-byte
threshold of the claim) whose decoded text is only 564 characters and
contains the pkgutil idiom IS classified as a namespace — the code's
size guard is on decoded characters, not bytes. -/
theorem c5_counterexample :
    1024 ≤ bigNsFile.length ∧ is_namespace_file bigNsFile = Except.ok true := by
  constructor <;> decide

/-- C5 (amended): the detector returns true for a text below 1024
characters containing a canonical namespace idiom (either style), false
for a text matching neither pattern combination regardless of size, and
false for every text of at least 1024 characters — the threshold applies
to the decoded text's character count. -/
theorem c5_detector_amended :
    (∀ text a b : List Char, text = a ++ pkgutilIdiom ++ b →
      text.length < 1024 → is_namespace text = true) ∧
    (∀ text a b : List Char, text = a ++ pkgResIdiom ++ b →
      text.length < 1024 → is_namespace text = true) ∧
    (∀ text : List Char, ¬matchesNs text → is_namespace text = false) ∧
    (∀ text : List Char, 1024 ≤ text.length → is_namespace text = false) := by
  refine ⟨?_, ?_, ?_, ?_⟩
  · rintro text a b rfl hlen
    exact (is_namespace_iff _).mpr
      ⟨hlen, matchesNs_infix a b ((matchesNs_iff _).mpr (by decide))⟩
  · rintro text a b rfl hlen
    exact (is_namespace_iff _).mpr
      ⟨hlen, matchesNs_infix a b ((matchesNs_iff _).mpr (by decide))⟩
  · intro text h
    have hns : nsSearch text = false := by
      cases hns : nsSearch text with
      | false => rfl
      | true => exact absurd ((matchesNs_iff text).mpr hns) h
    simp [is_namespace, hns]
  · intro text h
    unfold is_namespace
    rw [decide_eq_false (Nat.not_lt.mpr h)]
    rfl

set_option maxRecDepth 20000 in
/-- C5 witness: the parts applied to the two canonical idioms, a
non-matching text, and an over-long text. -/
theorem c5_witness :
    is_namespace pkgutilIdiom = true ∧ is_namespace pkgResIdiom = true ∧
    is_namespace "import pkgutil".toList = false ∧
    is_namespace (List.replicate 1024 'a') = false :=
  ⟨c5_detector_amended.1 pkgutilIdiom [] [] (by simp) (by decide),
   c5_detector_amended.2.1 pkgResIdiom [] [] (by simp) (by decide),
   c5_detector_amended.2.2.1 "import pkgutil".toList
     (fun h => absurd ((matchesNs_iff _).mp h) (by decide)),
   c5_detector_amended.2.2.2 (List.replicate 1024 'a') (by decide)⟩

/-- C6 counterexample: a file whose first two lines are plain UTF-8 but
whose later bytes cannot be decoded makes the detector raise
`UnicodeDecodeError` (only `SyntaxError` is suppressed), not return
false. -/
theorem c6_counterexample :
    is_namespace_file badUtf8File = Except.error PyExc.unicodeDecodeErr := by
  decide

/-- C6 (amended): a failure during encoding detection (a `SyntaxError`)
makes the detector return false without raising; the declared header
encoding is honored (the latin-1 doctest file decodes and is detected
even though its bytes are not valid UTF-8); but a file whose bytes fail
to decode under the detected encoding after detection succeeded raises
`UnicodeDecodeError` instead of returning false. -/
theorem c6_detector_errors_amended :
    (∀ file : List Nat, detect_encoding file = Except.error PyExc.syntaxErr →
      is_namespace_file file = Except.ok false) ∧
    (detect_encoding latin1File = Except.ok Encoding.latin1 ∧
      decodeUtf8 latin1File = none ∧
      is_namespace_file latin1File = Except.ok true) ∧
    (∀ (file : List Nat) (enc : Encoding),
      detect_encoding file = Except.ok enc → decodeFile enc file = none →
      is_namespace_file file = Except.error PyExc.unicodeDecodeErr) := by
  refine ⟨?_, by decide, ?_⟩
  · intro file h
    simp [is_namespace_file, pyReadText, h]
  · intro file enc h1 h2
    simp [is_namespace_file, pyReadText, h1, h2]

/-- C6 witness: the two universally quantified parts applied to concrete
files (an undecodable first line; a late undecodable byte). -/
theorem c6_witness :
    (detect_encoding [255] = Except.error PyExc.syntaxErr ∧
      is_namespace_file [255] = Except.ok false) ∧
    (detect_encoding badUtf8File = Except.ok Encoding.utf8 ∧
      decodeFile Encoding.utf8 badUtf8File = none ∧
      is_namespace_file badUtf8File = Except.error PyExc.unicodeDecodeErr) :=
  ⟨⟨by decide, c6_detector_errors_amended.1 [255] (by decide)⟩,
   ⟨by decide, by decide,
    c6_detector_errors_amended.2.2 badUtf8File Encoding.utf8
      (by decide) (by decide)⟩⟩
